import Mathlib

/-!
Verification development for `watch_psoas.py`, a single-page change watcher.

The pure logic of the script (text normalization line cleanup, fingerprint
comparison, listing-URL extraction and canonicalization, diff truncation,
state-store read/write, and the `run_once` orchestration) is embedded as
executable Lean definitions.  External library collaborators (BeautifulSoup
text extraction, `urllib.parse.urljoin`, `hashlib.sha256`, `difflib`,
the network send calls, and the clock) are modelled as explicit function
parameters and boolean outcome oracles, mirroring how the script treats
them as external I/O.
-/

namespace PsoasWatcher

/-- ASCII whitespace set stripped by Python `str.strip()` (the embedding
covers the ASCII part of Python's whitespace class, which is all the
script's data ever contains). -/
def pyWS (c : Char) : Bool :=
  c = ' ' || c = '\t' || c = '\n' || c = '\r' || c = '\x0b' || c = '\x0c'

/-- Line-break characters recognized by Python `str.splitlines()`. -/
def pyLB (c : Char) : Bool :=
  c = '\n' || c = '\r' || c = '\x0b' || c = '\x0c' || c = '\x1c' ||
  c = '\x1d' || c = '\x1e' || c = '\x85' || c = '\u2028' || c = '\u2029'

/-- Drop the longest run of characters satisfying `p` from the end of a list
(the right half of Python `strip`/`rstrip`). -/
def dropEndWhile (p : Char → Bool) (l : List Char) : List Char :=
  (l.reverse.dropWhile p).reverse

/-- Python `str.strip()` on a character list. -/
def pyStripL (l : List Char) : List Char :=
  dropEndWhile pyWS (l.dropWhile pyWS)

/-- Python `str.strip()` on a `String`. -/
def pyStripStr (s : String) : String :=
  String.mk (pyStripL s.data)

/-- Python `str.rstrip(c)` for a single strip character `c`. -/
def rstripChar (c : Char) (l : List Char) : List Char :=
  dropEndWhile (· == c) l

/-- Python `str.strip(c)` for a single strip character `c`. -/
def stripChar (c : Char) (l : List Char) : List Char :=
  rstripChar c (l.dropWhile (· == c))

/-- Python `str.split(c)` on a single separator character: the list of
pieces between occurrences of `c` (always nonempty, `""` pieces kept). -/
def splitChar (c : Char) : List Char → List (List Char)
  | [] => [[]]
  | x :: r =>
    if x = c then [] :: splitChar c r
    else
      match splitChar c r with
      | [] => [[x]]
      | p :: ps => (x :: p) :: ps

/-- Worker for Python `str.splitlines()`: `cur` is the reversed current
line; `\r\n` counts as a single break, and a break at the very end does
not open a trailing empty line. -/
def slAux (cur : List Char) : List Char → List (List Char)
  | [] => [cur.reverse]
  | [c] => if pyLB c then [cur.reverse] else [(c :: cur).reverse]
  | c :: d :: r =>
    if pyLB c then
      if c = '\r' ∧ d = '\n' then
        match r with
        | [] => [cur.reverse]
        | e :: r2 => cur.reverse :: slAux [] (e :: r2)
      else cur.reverse :: slAux [] (d :: r)
    else slAux (c :: cur) (d :: r)

/-- Python `str.splitlines()` on a character list. -/
def pySplitlines (l : List Char) : List (List Char) :=
  match l with
  | [] => []
  | _ => slAux [] l

/-- Python `str.splitlines()` on a `String`, as a list of `String`s. -/
def pySplitlinesStr (s : String) : List String :=
  (pySplitlines s.data).map String.mk

/-- Join a list of pieces with a separator list (`sep.join(pieces)`). -/
def joinWith (sep : List Char) : List (List Char) → List Char
  | [] => []
  | [x] => x
  | x :: y :: t => x ++ sep ++ joinWith sep (y :: t)

/-- Last element of a list of character lists, `[]` when the list is
empty (Python `pieces[-1]` in the script is only used on nonempty
results of `split`). -/
def lastD : List (List Char) → List Char
  | [] => []
  | [x] => x
  | _ :: y :: t => lastD (y :: t)

/-- Last character of a character list, if any. -/
def lastCh : List Char → Option Char
  | [] => none
  | [c] => some c
  | _ :: d :: r => lastCh (d :: r)

/-- Python substring containment `pat in s`. -/
def containsSub (pat : List Char) : List Char → Bool
  | [] => decide (pat = [])
  | c :: rest => pat.isPrefixOf (c :: rest) || containsSub pat rest

/-- Fuelled worker for Python `str.split(pat)` with a nonempty separator:
greedy left-to-right non-overlapping matches.  The fuel is structural so
the definition evaluates in the kernel; `pySplit` supplies `s.length`,
which is always sufficient since every step consumes at least one
character. -/
def pySplitF (pat : List Char) : Nat → List Char → List (List Char)
  | _, [] => [[]]
  | 0, s => [s]
  | fuel + 1, c :: rest =>
    if pat.isPrefixOf (c :: rest) then
      [] :: pySplitF pat fuel ((c :: rest).drop pat.length)
    else
      match pySplitF pat fuel rest with
      | [] => [[c]]
      | p :: ps => (c :: p) :: ps

/-- Python `str.split(pat)` (list of pieces between non-overlapping
left-to-right matches; `[s]` when the separator is absent or empty). -/
def pySplit (pat s : List Char) : List (List Char) :=
  if pat = [] then [s] else pySplitF pat s.length s

/-- Python `s.split(pat)[-1]`. -/
def pySplitLastPiece (pat s : List Char) : List Char :=
  lastD (pySplit pat s)

/-- Lexicographic `≤` on character lists by code point, as Python string
comparison orders `sorted(...)`. -/
def pyLeChars : List Char → List Char → Bool
  | [], _ => true
  | _ :: _, [] => false
  | a :: as, b :: bs => if a = b then pyLeChars as bs else decide (a < b)

/-- Python `≤` on strings (code-point lexicographic). -/
def pyLe (a b : String) : Bool :=
  pyLeChars a.data b.data

/-- Insert into a sorted list (worker for `sortL`). -/
def insertSorted (x : String) : List String → List String
  | [] => [x]
  | y :: r => if pyLe x y then x :: y :: r else y :: insertSorted x r

/-- Python `sorted(...)` on a list of strings (insertion sort with the
code-point order). -/
def sortL : List String → List String
  | [] => []
  | x :: r => insertSorted x (sortL r)

/-- Add an element to a duplicate-free list if absent: Python `set.add`
with the set represented as its insertion-ordered support list. -/
def addIfAbsent (acc : List String) (x : String) : List String :=
  if x ∈ acc then acc else acc ++ [x]

/-- Python set difference `a - b` on support lists. -/
def setDiffL (a b : List String) : List String :=
  a.filter (fun x => decide (x ∉ b))

/-- The pure line-cleanup stage of `normalize_text`:
`lines = [ln.strip() for ln in text.splitlines()]`,
`lines = [ln for ln in lines if ln]`, `"\n".join(lines)`. -/
def cleanLinesL (l : List Char) : List Char :=
  joinWith ['\n'] (((pySplitlines l).map pyStripL).filter (fun q => decide (q ≠ [])))

/-- `normalize_text(html)`: BeautifulSoup parsing, removal of
script/style/noscript and `get_text(separator="\n", strip=True)` are the
external collaborator `get_text`; the subsequent line cleanup is pure. -/
def normalize_text (get_text : String → String) (html : String) : String :=
  String.mk (cleanLinesL (get_text html).data)

/-- The truncation marker appended by `make_diff`. -/
def diff_trunc_marker : String := "... (diff truncated) ..."

/-- Line list computed by `make_diff` before the final `"\n".join`:
`difflib.unified_diff(old.splitlines(), new.splitlines(), lineterm="",
fromfile="previous", tofile="current")` is the external collaborator
`unified_diff`; the truncation logic is pure. -/
def make_diff_lines (unified_diff : List String → List String → List String)
    (old new : String) (max_lines : Nat) : List String :=
  let lines := unified_diff (pySplitlinesStr old) (pySplitlinesStr new)
  if max_lines < lines.length then lines.take max_lines ++ [diff_trunc_marker]
  else lines

/-- `make_diff(old, new, max_lines)`. -/
def make_diff (unified_diff : List String → List String → List String)
    (old new : String) (max_lines : Nat) : String :=
  String.intercalate "\n" (make_diff_lines unified_diff old new max_lines)

/-- The detail-page path marker `"/en/apartments/"`. -/
def apartments_marker : List Char := "/en/apartments/".data

/-- The per-link filter body of `extract_listings`: given the already
resolved absolute URL, keep it (canonicalized by `rstrip("/")`) iff it
contains `"/en/apartments/"`, has no `"?"`, and has a path tail beyond
the marker that is nonempty and not all slashes. -/
def keepListing (abs_url : String) : Option String :=
  let l := abs_url.data
  if containsSub apartments_marker l then
    if containsSub ['?'] l then none
    else
      let tail := pySplitLastPiece apartments_marker l
      if tail ≠ [] ∧ stripChar '/' tail ≠ [] then some (String.mk (rstripChar '/' l))
      else none
  else none

/-- `extract_listings(html, base_url)`: BeautifulSoup anchor enumeration
is the collaborator `findHrefs html` and `urllib.parse.urljoin` is the
collaborator `uj`; each href is stripped, resolved, filtered and the
kept URLs are accumulated as a set. -/
def extract_listings (uj : String → String → String) (hrefs : List String)
    (base_url : String) : List String :=
  hrefs.foldl (fun acc href =>
    match keepListing (uj base_url (pyStripStr href)) with
    | some u => addIfAbsent acc u
    | none => acc) []

/-- One on-disk state artifact: missing, present but unreadable (an open
or read that raises), or present with readable content. -/
inductive PFile
  | missing
  | corrupt
  | content (s : String)
deriving DecidableEq

/-- The state directory: `last_hash.txt`, `last_text.txt`,
`last_listings.txt`. -/
structure StateDir where
  hashF : PFile
  textF : PFile
  listingsF : PFile
deriving DecidableEq

/-- Result of `read_state`, with the warnings it printed. -/
structure ReadResult where
  last_hash : Option String
  last_text : Option String
  last_listings : List String
  logs : List String
deriving DecidableEq

/-- Warning printed by `read_state` when a read raises. -/
def warn_read_state : String := "[WARN] Failed to read state"

/-- Parsing of the hash file content: `f.read().strip() or None`. -/
def parse_hash (s : String) : Option String :=
  if pyStripStr s = "" then none else some (pyStripStr s)

/-- Parsing of the listings file content:
`{ln.strip() for ln in f if ln.strip()}`. -/
def parse_listings (s : String) : List String :=
  (((splitChar '\n' s.data).map pyStripL).filter (fun l => decide (l ≠ []))).foldl
    (fun acc l => addIfAbsent acc (String.mk l)) []

/-- `read_state(state_dir)`: the three reads happen inside one
`try`, so the first raising read aborts the remaining reads; every
outcome is returned (never raised), with missing files giving
absent/empty values. -/
def read_state (dir : StateDir) : ReadResult :=
  match dir.hashF with
  | PFile.corrupt => ⟨none, none, [], [warn_read_state]⟩
  | hf =>
    let lh := match hf with
      | PFile.content s => parse_hash s
      | _ => none
    match dir.textF with
    | PFile.corrupt => ⟨lh, none, [], [warn_read_state]⟩
    | tf =>
      let lt := match tf with
        | PFile.content s => some s
        | _ => none
      match dir.listingsF with
      | PFile.corrupt => ⟨lh, lt, [], [warn_read_state]⟩
      | PFile.content s => ⟨lh, lt, parse_listings s, []⟩
      | PFile.missing => ⟨lh, lt, [], []⟩

/-- Content written to `last_listings.txt`: one sorted URL per line. -/
def serialize_listings (listings : List String) : String :=
  String.mk (List.flatten ((sortL listings).map (fun u => u.data ++ ['\n'])))

/-- `write_state(state_dir, h, text, listings)`: overwrites hash and
text, and the listings file when a listing set is given. -/
def write_state (dir : StateDir) (h text : String) (listings : Option (List String)) :
    StateDir :=
  ⟨PFile.content h, PFile.content text,
   match listings with
   | some l => PFile.content (serialize_listings l)
   | none => dir.listingsF⟩

/-- The two notifier channels. -/
inductive Channel
  | telegram
  | email
deriving DecidableEq

/-- Observable effects of the channel send functions. -/
structure SendOut where
  logs : List String
  attempts : List Channel
  delivered : List (Channel × String)
deriving DecidableEq

/-- The empty effect record. -/
def SendOut.nil : SendOut := ⟨[], [], []⟩

/-- Concatenation of effect records. -/
def SendOut.app (a b : SendOut) : SendOut :=
  ⟨a.logs ++ b.logs, a.attempts ++ b.attempts, a.delivered ++ b.delivered⟩

/-- One spec-level notification event (subject and body dispatched to
both channels at one call site of `run_once`). -/
structure NotifyEvent where
  subject : String
  body : String
deriving DecidableEq

/-- Environment configuration relevant to one run. -/
structure Config where
  url : String
  notify_first : Bool
  telegramConfigured : Bool
  emailConfigured : Bool
deriving DecidableEq

/-- External-world outcomes for one run: whether each channel's network
send succeeds when attempted, and the formatted UTC timestamp. -/
structure World where
  telegramSendOk : Bool
  emailSendOk : Bool
  ts : String
deriving DecidableEq

/-- External library collaborators of the script. -/
structure Collaborators where
  get_text : String → String
  sha256hex : String → String
  urljoin : String → String → String
  findHrefs : String → List String
  unified_diff : List String → List String → List String

/-- Warning printed by `send_telegram` when unconfigured. -/
def warn_telegram_unconfigured : String :=
  "[WARN] Telegram not configured; skipping Telegram send."

/-- Warning printed by `send_telegram` when the post raises. -/
def warn_telegram_failed : String := "[WARN] Failed to send Telegram message"

/-- Warning printed by `send_email` when unconfigured. -/
def warn_email_unconfigured : String := "[WARN] Missing SMTP configuration; email not sent."

/-- `send_telegram(message)`: skip with a warning when unconfigured; the
post is wrapped in `try`/`except`, so a send failure is logged and never
raised. -/
def send_telegram (cfg : Config) (w : World) (message : String) : SendOut :=
  if cfg.telegramConfigured then
    if w.telegramSendOk then ⟨[], [Channel.telegram], [(Channel.telegram, message)]⟩
    else ⟨[warn_telegram_failed], [Channel.telegram], []⟩
  else ⟨[warn_telegram_unconfigured], [], []⟩

/-- `send_email(subject, body)`: skip with a warning when unconfigured;
the SMTP block has no `try`/`except`, so a send failure raises out of
the function. -/
def send_email (cfg : Config) (w : World) (subject body : String) :
    Except String SendOut :=
  if cfg.emailConfigured then
    if w.emailSendOk then
      Except.ok ⟨[], [Channel.email], [(Channel.email, subject ++ "\n" ++ body)]⟩
    else Except.error "SMTPException raised during send_email"
  else Except.ok ⟨[warn_email_unconfigured], [], []⟩

/-- The effect record `send_email` returns when it does not raise. -/
def emailOut (cfg : Config) (subject body : String) : SendOut :=
  if cfg.emailConfigured then ⟨[], [Channel.email], [(Channel.email, subject ++ "\n" ++ body)]⟩
  else ⟨[warn_email_unconfigured], [], []⟩

/-- Subject of the baseline notification. -/
def baseline_subject : String := "PSOAS page baseline saved (first run)"

/-- Body of the baseline notification. -/
def baseline_body (ts url : String) : String :=
  "Time: " ++ ts ++ "\nURL: " ++ url ++
  "\n\nBaseline content saved. Notifications will be sent on changes."

/-- Sample block of the new-listings message: first 10 URLs, remainder
summarized by count. -/
def new_listings_sample (nl : List String) : String :=
  let sample := String.intercalate "\n" (nl.take 10)
  if 10 < nl.length then sample ++ "\n... and " ++ toString (nl.length - 10) ++ " more"
  else sample

/-- Full new-listings message. -/
def new_listings_message (url ts : String) (nl : List String) : String :=
  "New PSOAS listings detected (" ++ toString nl.length ++ ") @ " ++ ts ++
  "\nURL: " ++ url ++ "\n\n" ++ new_listings_sample nl

/-- Subject of the generic change notification. -/
def changed_subject (ts : String) : String := "PSOAS page changed @ " ++ ts

/-- Body of the generic change notification. -/
def changed_body (url lh h diff_text : String) : String :=
  "URL: " ++ url ++ "\n\nChange detected. Hash: " ++ lh ++ " -> " ++ h ++
  "\n\nDiff:\n" ++ diff_text ++ "\n"

/-- Result of a completed (non-raising) `run_once`. -/
structure RunResult where
  exitCode : Nat
  dir : StateDir
  events : List NotifyEvent
  sends : SendOut
  readLogs : List String
deriving DecidableEq

/-- `run_once`: fetch has already succeeded and produced `html`; the
function normalizes, fingerprints, extracts listings, loads state, and
runs the baseline / new-listings / fingerprint checks in the source's
order.  An exception escaping a notification send propagates as
`Except.error` (caught only in `main`). -/
def run_once (col : Collaborators) (cfg : Config) (w : World) (html : String)
    (dir : StateDir) : Except String RunResult :=
  let text := normalize_text col.get_text html
  let h := col.sha256hex text
  let listings := extract_listings col.urljoin (col.findHrefs html) cfg.url
  let rs := read_state dir
  match rs.last_hash with
  | none =>
    let dir' := write_state dir h text (some listings)
    if cfg.notify_first then
      let body := baseline_body w.ts cfg.url
      let t := send_telegram cfg w (baseline_subject ++ "\n" ++ body)
      match send_email cfg w baseline_subject body with
      | Except.error e => Except.error e
      | Except.ok m => Except.ok ⟨0, dir', [⟨baseline_subject, body⟩], t.app m, rs.logs⟩
    else Except.ok ⟨0, dir', [], SendOut.nil, rs.logs⟩
  | some last_hash =>
    let new_listings := sortL (setDiffL listings rs.last_listings)
    if new_listings ≠ [] then
      let message := new_listings_message cfg.url w.ts new_listings
      let t := send_telegram cfg w message
      match send_email cfg w "New PSOAS listings available" message with
      | Except.error e => Except.error e
      | Except.ok m =>
        let dir' := write_state dir h text (some listings)
        Except.ok ⟨0, dir', [⟨"New PSOAS listings available", message⟩], t.app m, rs.logs⟩
    else if h ≠ last_hash then
      let diff_text := make_diff col.unified_diff (rs.last_text.getD "") text 2000
      let subject := changed_subject w.ts
      let body := changed_body cfg.url last_hash h diff_text
      let t := send_telegram cfg w (subject ++ "\n" ++ body)
      match send_email cfg w subject body with
      | Except.error e => Except.error e
      | Except.ok m =>
        let dir' := write_state dir h text (some listings)
        Except.ok ⟨0, dir', [⟨subject, body⟩], t.app m, rs.logs⟩
    else Except.ok ⟨0, dir, [], SendOut.nil, rs.logs⟩

/-- Exit code produced by `main`: 0 from a completed run, 1 when
`run_once` raised (after `main`'s best-effort error notification). -/
def main_exit (r : Except String RunResult) : Nat :=
  match r with
  | Except.ok res => res.exitCode
  | Except.error _ => 1

/-! ### Lemmas about stripping -/

lemma dropWhile_idem (p : Char → Bool) (l : List Char) :
    (l.dropWhile p).dropWhile p = l.dropWhile p := by
  induction l with
  | nil => rfl
  | cons x r ih =>
    by_cases h : p x
    · simp [List.dropWhile_cons, h, ih]
    · simp [List.dropWhile_cons, h]

lemma mem_of_mem_dropWhile (p : Char → Bool) (l : List Char) (a : Char)
    (h : a ∈ l.dropWhile p) : a ∈ l := by
  induction l with
  | nil => simp at h
  | cons x r ih =>
    by_cases hx : p x
    · rw [List.dropWhile_cons_of_pos hx] at h
      exact List.mem_cons_of_mem x (ih h)
    · rwa [List.dropWhile_cons_of_neg hx] at h

lemma length_dropWhile_le (p : Char → Bool) (l : List Char) :
    (l.dropWhile p).length ≤ l.length := by
  induction l with
  | nil => simp
  | cons x r ih =>
    by_cases hx : p x
    · rw [List.dropWhile_cons_of_pos hx]
      exact Nat.le_trans ih (by simp)
    · rw [List.dropWhile_cons_of_neg hx]

lemma dropEndWhile_append (p : Char → Bool) (l : List Char) :
    ∃ t, l = dropEndWhile p l ++ t ∧ ∀ x ∈ t, p x = true := by
  refine ⟨(l.reverse.takeWhile p).reverse, ?_, ?_⟩
  · have h1 : l.reverse.takeWhile p ++ l.reverse.dropWhile p = l.reverse :=
      List.takeWhile_append_dropWhile p l.reverse
    calc l = l.reverse.reverse := (List.reverse_reverse l).symm
    _ = (l.reverse.takeWhile p ++ l.reverse.dropWhile p).reverse := by rw [h1]
    _ = (l.reverse.dropWhile p).reverse ++ (l.reverse.takeWhile p).reverse := by
        rw [List.reverse_append]
    _ = dropEndWhile p l ++ (l.reverse.takeWhile p).reverse := rfl
  · intro x hx
    exact List.mem_takeWhile_imp (List.mem_reverse.mp hx)

lemma dropEndWhile_isPrefixOf (p : Char → Bool) (l : List Char) :
    dropEndWhile p l <+: l := by
  obtain ⟨t, ht, _⟩ := dropEndWhile_append p l
  exact ⟨t, ht.symm⟩

lemma dropEndWhile_idem (p : Char → Bool) (l : List Char) :
    dropEndWhile p (dropEndWhile p l) = dropEndWhile p l := by
  unfold dropEndWhile
  rw [List.reverse_reverse, dropWhile_idem]

lemma mem_of_mem_dropEndWhile (p : Char → Bool) (l : List Char) (a : Char)
    (h : a ∈ dropEndWhile p l) : a ∈ l := by
  unfold dropEndWhile at h
  rw [List.mem_reverse] at h
  exact List.mem_reverse.mp (mem_of_mem_dropWhile p l.reverse a h)

lemma dropWhile_eq_self_of_prefix (p : Char → Bool) (l k : List Char)
    (hl : l.dropWhile p = l) (hk : k <+: l) : k.dropWhile p = k := by
  cases k with
  | nil => rfl
  | cons x t =>
    obtain ⟨rest, hrest⟩ := hk
    subst hrest
    rw [List.cons_append] at hl
    have hx : p x = false := by
      by_contra hx
      have hx' : p x = true := by revert hx; cases p x <;> simp
      have hlen := congrArg List.length hl
      rw [List.dropWhile_cons_of_pos hx'] at hlen
      have hle := length_dropWhile_le p (t ++ rest)
      simp only [List.length_cons, List.length_append] at hlen hle
      omega
    rw [List.dropWhile_cons_of_neg (by simp [hx])]

lemma pyStripL_idem (l : List Char) : pyStripL (pyStripL l) = pyStripL l := by
  unfold pyStripL
  have h1 : (l.dropWhile pyWS).dropWhile pyWS = l.dropWhile pyWS := dropWhile_idem _ _
  have h2 : (dropEndWhile pyWS (l.dropWhile pyWS)).dropWhile pyWS
      = dropEndWhile pyWS (l.dropWhile pyWS) :=
    dropWhile_eq_self_of_prefix _ _ _ h1 (dropEndWhile_isPrefixOf _ _)
  rw [h2, dropEndWhile_idem]

lemma mem_of_mem_pyStripL (l : List Char) (a : Char) (h : a ∈ pyStripL l) : a ∈ l := by
  unfold pyStripL at h
  exact mem_of_mem_dropWhile _ _ _ (mem_of_mem_dropEndWhile _ _ _ h)

/-! ### Lemmas about `splitlines` -/

lemma slAux_nil (cur : List Char) : slAux cur [] = [cur.reverse] := rfl

lemma slAux_single_lb (cur : List Char) (c : Char) (h : pyLB c = true) :
    slAux cur [c] = [cur.reverse] := by
  unfold slAux
  simp [h]

lemma slAux_single_not (cur : List Char) (c : Char) (h : pyLB c = false) :
    slAux cur [c] = [(c :: cur).reverse] := by
  unfold slAux
  simp [h]

lemma slAux_cons_not (cur : List Char) (c : Char) (t : List Char) (h : pyLB c = false)
    (ht : t ≠ []) : slAux cur (c :: t) = slAux (c :: cur) t := by
  cases t with
  | nil => exact absurd rfl ht
  | cons d r =>
    conv_lhs => unfold slAux
    simp [h]

lemma slAux_cons_nl (cur : List Char) (d : Char) (r : List Char) :
    slAux cur ('\n' :: d :: r) = cur.reverse :: slAux [] (d :: r) := by
  conv_lhs => unfold slAux
  simp [pyLB]

lemma slAux_crlf_nil (cur : List Char) : slAux cur ['\r', '\n'] = [cur.reverse] := by
  unfold slAux
  simp [pyLB]

lemma slAux_crlf_cons (cur : List Char) (e : Char) (r2 : List Char) :
    slAux cur ('\r' :: '\n' :: e :: r2) = cur.reverse :: slAux [] (e :: r2) := by
  conv_lhs => unfold slAux
  simp [pyLB]

lemma slAux_cons_lb_not_crlf (cur : List Char) (c d : Char) (r : List Char)
    (h : pyLB c = true) (h2 : ¬(c = '\r' ∧ d = '\n')) :
    slAux cur (c :: d :: r) = cur.reverse :: slAux [] (d :: r) := by
  conv_lhs => unfold slAux
  simp [h, h2]

lemma slAux_nobreak (m : List Char) (h : ∀ c ∈ m, pyLB c = false) (cur : List Char) :
    slAux cur m = [cur.reverse ++ m] := by
  induction m generalizing cur with
  | nil => simp [slAux_nil]
  | cons c r ih =>
    have hc : pyLB c = false := h c (by simp)
    cases r with
    | nil => simp [slAux_single_not _ _ hc]
    | cons d r2 =>
      rw [slAux_cons_not _ _ _ hc (by simp), ih (fun x hx => h x (by simp [hx]))]
      simp

lemma pySplitlines_of_ne_nil (l : List Char) (h : l ≠ []) :
    pySplitlines l = slAux [] l := by
  cases l with
  | nil => exact absurd rfl h
  | cons x r => rfl

lemma slAux_breakfree_append (p : List Char) (hp : ∀ c ∈ p, pyLB c = false)
    (m cur : List Char) :
    slAux cur (p ++ '\n' :: m) = (cur.reverse ++ p) :: pySplitlines m := by
  induction p generalizing cur with
  | nil =>
    cases m with
    | nil => simp [slAux_single_lb _ '\n' (by simp [pyLB]), pySplitlines]
    | cons d r2 =>
      rw [List.nil_append, slAux_cons_nl, pySplitlines_of_ne_nil _ (by simp)]
      simp
  | cons x p' ih =>
    have hx : pyLB x = false := hp x (by simp)
    rw [List.cons_append, slAux_cons_not _ _ _ hx (by simp),
      ih (fun c hc => hp c (by simp [hc]))]
    simp

lemma slAux_breakfree (cur l : List Char) :
    (∀ c ∈ cur, pyLB c = false) → ∀ q ∈ slAux cur l, ∀ c ∈ q, pyLB c = false := by
  induction cur, l using slAux.induct with
  | case1 cur =>
    intro hcur q hq c hc
    rw [slAux_nil] at hq
    simp at hq
    subst hq
    exact hcur c (List.mem_reverse.mp hc)
  | case2 cur c hlb =>
    intro hcur q hq d hd
    rw [slAux_single_lb _ _ hlb] at hq
    simp at hq
    subst hq
    exact hcur d (List.mem_reverse.mp hd)
  | case3 cur c hlb =>
    intro hcur q hq d hd
    have hc : pyLB c = false := by revert hlb; cases pyLB c <;> simp
    rw [slAux_single_not _ _ hc] at hq
    simp at hq
    subst hq
    simp at hd
    rcases hd with hd' | rfl
    · exact hcur d hd'
    · exact hc
  | case4 cur c d hlb hcd =>
    intro hcur q hq e he
    obtain ⟨rfl, rfl⟩ := hcd
    rw [slAux_crlf_nil] at hq
    simp at hq
    subst hq
    exact hcur e (List.mem_reverse.mp he)
  | case5 cur c d hlb hcd x r ih =>
    intro hcur q hq e he
    obtain ⟨rfl, rfl⟩ := hcd
    rw [slAux_crlf_cons] at hq
    rcases List.mem_cons.mp hq with rfl | hq'
    · exact hcur e (List.mem_reverse.mp he)
    · exact ih (by simp) q hq' e he
  | case6 cur c d r hlb hcd ih =>
    intro hcur q hq e he
    rw [slAux_cons_lb_not_crlf cur c d r hlb hcd] at hq
    rcases List.mem_cons.mp hq with rfl | hq'
    · exact hcur e (List.mem_reverse.mp he)
    · exact ih (by simp) q hq' e he
  | case7 cur c d r hlb ih =>
    intro hcur q hq e he
    have hc : pyLB c = false := by revert hlb; cases pyLB c <;> simp
    rw [slAux_cons_not _ _ _ hc (by simp)] at hq
    refine ih ?_ q hq e he
    intro y hy
    rcases List.mem_cons.mp hy with rfl | hy'
    · exact hc
    · exact hcur y hy'

lemma pySplitlines_breakfree (l q : List Char) (hq : q ∈ pySplitlines l) :
    ∀ c ∈ q, pyLB c = false := by
  cases l with
  | nil => simp [pySplitlines] at hq
  | cons x r =>
    exact slAux_breakfree [] (x :: r) (by simp) q hq

lemma joinWith_cons_cons (sep : List Char) (p q : List Char) (t : List (List Char)) :
    joinWith sep (p :: q :: t) = p ++ sep ++ joinWith sep (q :: t) := rfl

lemma pySplitlines_joinWith (ps : List (List Char)) (hne : ps ≠ [])
    (h : ∀ p ∈ ps, p ≠ [] ∧ ∀ c ∈ p, pyLB c = false) :
    pySplitlines (joinWith ['\n'] ps) = ps := by
  induction ps with
  | nil => exact absurd rfl hne
  | cons p ps' ih =>
    obtain ⟨hp0, hpf⟩ := h p (by simp)
    cases ps' with
    | nil =>
      show pySplitlines p = [p]
      rw [pySplitlines_of_ne_nil _ hp0, slAux_nobreak p hpf]
      simp
    | cons q t =>
      rw [joinWith_cons_cons]
      have hj : p ++ ['\n'] ++ joinWith ['\n'] (q :: t)
          = p ++ '\n' :: joinWith ['\n'] (q :: t) := by simp
      rw [hj, pySplitlines_of_ne_nil _ (by cases p <;> simp),
        slAux_breakfree_append p hpf]
      rw [ih (by simp) (fun x hx => h x (by simp [hx]))]
      simp

lemma mapSelf (l : List (List Char)) (f : List Char → List Char)
    (h : ∀ x ∈ l, f x = x) : l.map f = l := by
  induction l with
  | nil => rfl
  | cons x r ih =>
    rw [List.map_cons, h x (by simp), ih (fun y hy => h y (by simp [hy]))]

lemma cleanLinesL_idem (l : List Char) : cleanLinesL (cleanLinesL l) = cleanLinesL l := by
  conv_lhs => rw [cleanLinesL]
  rw [show cleanLinesL l
      = joinWith ['\n'] (((pySplitlines l).map pyStripL).filter (fun q => decide (q ≠ [])))
      from rfl]
  set ps := ((pySplitlines l).map pyStripL).filter (fun q => decide (q ≠ [])) with hps
  have hmem : ∀ p ∈ ps, p ≠ [] ∧ (∀ c ∈ p, pyLB c = false) ∧ pyStripL p = p := by
    intro p hp
    rw [hps] at hp
    obtain ⟨hp1, hp2⟩ := List.mem_filter.mp hp
    obtain ⟨q, hq, rfl⟩ := List.mem_map.mp hp1
    refine ⟨by simpa using hp2, ?_, pyStripL_idem q⟩
    intro c hc
    exact pySplitlines_breakfree l q hq c (mem_of_mem_pyStripL q c hc)
  by_cases hps0 : ps = []
  · rw [hps0]
    rfl
  · rw [pySplitlines_joinWith ps hps0 (fun p hp => ⟨(hmem p hp).1, (hmem p hp).2.1⟩),
      mapSelf _ _ (fun p hp => (hmem p hp).2.2),
      List.filter_eq_self.mpr (fun p hp => by simpa using (hmem p hp).1)]

/-- C9: the Text Normalizer is idempotent — for every HTML input,
applying the normalizer to the normalizer's own output returns that
output unchanged.  The hypothesis states that the HTML-parsing
collaborator returns markup-free, already-cleaned text unchanged (the
behavior of `BeautifulSoup(...).get_text` on text that contains no
markup). -/
theorem normalize_text_idempotent (g : String → String)
    (hg : ∀ s : String, cleanLinesL s.data = s.data → g s = s) (html : String) :
    normalize_text g (normalize_text g html) = normalize_text g html := by
  unfold normalize_text
  have h1 : cleanLinesL (String.mk (cleanLinesL (g html).data)).data
      = (String.mk (cleanLinesL (g html).data)).data := cleanLinesL_idem _
  rw [hg _ h1]
  exact congrArg String.mk (cleanLinesL_idem _)

/-- Witness for C9 at a concrete extractor and HTML input. -/
theorem normalize_text_idempotent_witness :
    normalize_text (fun s => s) (normalize_text (fun s => s) "  line one  \n\n line two \n") =
      normalize_text (fun s => s) "  line one  \n\n line two \n" :=
  normalize_text_idempotent (fun s => s) (fun _ _ => rfl) "  line one  \n\n line two \n"

/-- C8: for every pair of text blobs, whenever the diff engine's line
count exceeds the configured maximum, `make_diff` truncates to that
maximum and appends the explicit truncation marker; otherwise the lines
pass through unchanged and no marker appears (provided the diff engine
itself never emits the marker line, which `difflib` cannot since all of
its lines carry a `+`/`-`/space/header prefix); the returned string is
the newline join of those lines. -/
theorem make_diff_truncation (ud : List String → List String → List String)
    (old new : String) (max_lines : Nat) :
    (max_lines < (ud (pySplitlinesStr old) (pySplitlinesStr new)).length →
      make_diff_lines ud old new max_lines
        = (ud (pySplitlinesStr old) (pySplitlinesStr new)).take max_lines
            ++ [diff_trunc_marker] ∧
      (make_diff_lines ud old new max_lines).length = max_lines + 1 ∧
      diff_trunc_marker ∈ make_diff_lines ud old new max_lines) ∧
    (¬ max_lines < (ud (pySplitlinesStr old) (pySplitlinesStr new)).length →
      make_diff_lines ud old new max_lines
        = ud (pySplitlinesStr old) (pySplitlinesStr new) ∧
      (diff_trunc_marker ∉ ud (pySplitlinesStr old) (pySplitlinesStr new) →
        diff_trunc_marker ∉ make_diff_lines ud old new max_lines)) ∧
    make_diff ud old new max_lines
      = String.intercalate "\n" (make_diff_lines ud old new max_lines) := by
  refine ⟨?_, ?_, rfl⟩
  · intro h
    simp only [make_diff_lines]
    rw [if_pos h]
    refine ⟨rfl, ?_, by simp⟩
    simp only [List.length_append, List.length_take, List.length_cons, List.length_nil]
    omega
  · intro h
    simp only [make_diff_lines]
    rw [if_neg h]
    exact ⟨rfl, fun hm => hm⟩

/-- Constant diff engine used by the truncation witness. -/
def udConst : List String → List String → List String := fun _ _ => ["l1", "l2", "l3"]

/-- Witness for C8 at a concrete engine output that exceeds the maximum. -/
theorem make_diff_truncation_witness :
    make_diff_lines udConst "x" "y" 2
      = (udConst (pySplitlinesStr "x") (pySplitlinesStr "y")).take 2
          ++ [diff_trunc_marker] ∧
    (make_diff_lines udConst "x" "y" 2).length = 2 + 1 ∧
    diff_trunc_marker ∈ make_diff_lines udConst "x" "y" 2 :=
  (make_diff_truncation udConst "x" "y" 2).1 (by decide)

/-! ### Membership lemmas for the set-as-list operations -/

lemma mem_addIfAbsent (acc : List String) (x u : String) :
    u ∈ addIfAbsent acc x ↔ u ∈ acc ∨ u = x := by
  unfold addIfAbsent
  by_cases h : x ∈ acc
  · rw [if_pos h]
    constructor
    · exact fun hu => Or.inl hu
    · rintro (hu | rfl)
      · exact hu
      · exact h
  · rw [if_neg h]
    simp

lemma mem_insertSorted (x u : String) (l : List String) :
    u ∈ insertSorted x l ↔ u = x ∨ u ∈ l := by
  induction l with
  | nil => simp [insertSorted]
  | cons y r ih =>
    unfold insertSorted
    cases h : pyLe x y
    · simp only [Bool.false_eq_true, if_false, List.mem_cons, ih]
      tauto
    · simp only [if_true, List.mem_cons]

lemma mem_sortL (u : String) (l : List String) : u ∈ sortL l ↔ u ∈ l := by
  induction l with
  | nil => simp [sortL]
  | cons x r ih =>
    show u ∈ insertSorted x (sortL r) ↔ _
    rw [mem_insertSorted, ih]
    simp

lemma insertSorted_ne_nil (x : String) (l : List String) : insertSorted x l ≠ [] := by
  cases l with
  | nil => simp [insertSorted]
  | cons y r =>
    unfold insertSorted
    cases h : pyLe x y <;> simp

lemma sortL_eq_nil_iff (l : List String) : sortL l = [] ↔ l = [] := by
  cases l with
  | nil => simp [sortL]
  | cons x r =>
    show insertSorted x (sortL r) = [] ↔ _
    simp [insertSorted_ne_nil]

lemma setDiffL_eq_nil (b : List String) :
    ∀ a : List String, (∀ u ∈ a, u ∈ b) → setDiffL a b = [] := by
  intro a
  induction a with
  | nil => intro _; rfl
  | cons x r ih =>
    intro h
    have hx : x ∈ b := h x (by simp)
    show (x :: r).filter (fun u => decide (u ∉ b)) = []
    rw [List.filter_cons]
    have hd : decide (x ∉ b) = false := by simp [hx]
    rw [hd]
    simp only [Bool.false_eq_true, if_false]
    exact ih (fun u hu => h u (by simp [hu]))

/-! ### Round trip of the listings file -/

lemma splitChar_append_free (c : Char) (t : List Char) :
    ∀ p : List Char, c ∉ p → splitChar c (p ++ c :: t) = p :: splitChar c t := by
  intro p
  induction p with
  | nil =>
    intro _
    simp [splitChar]
  | cons x p' ih =>
    intro hp
    have hx : ¬x = c := by
      intro hxc
      exact hp (by simp [hxc])
    rw [List.cons_append]
    conv_lhs => unfold splitChar
    rw [if_neg hx, ih (fun hc => hp (by simp [hc]))]

lemma splitChar_join_newline (qs : List (List Char)) (h : ∀ q ∈ qs, '\n' ∉ q) :
    splitChar '\n' (List.flatten (qs.map (fun q => q ++ ['\n']))) = qs ++ [[]] := by
  induction qs with
  | nil => rfl
  | cons q qs' ih =>
    rw [List.map_cons, List.flatten_cons]
    rw [show (q ++ ['\n']) ++ List.flatten (qs'.map (fun q => q ++ ['\n']))
        = q ++ '\n' :: List.flatten (qs'.map (fun q => q ++ ['\n'])) by simp]
    rw [splitChar_append_free '\n' _ q (h q (by simp)),
      ih (fun x hx => h x (by simp [hx]))]
    rfl

lemma mem_foldl_addIfAbsent (u : String) :
    ∀ (l : List (List Char)) (acc : List String),
      u ∈ l.foldl (fun acc q => addIfAbsent acc (String.mk q)) acc ↔
        u ∈ acc ∨ ∃ q ∈ l, String.mk q = u := by
  intro l
  induction l with
  | nil => simp
  | cons q r ih =>
    intro acc
    rw [List.foldl_cons, ih, mem_addIfAbsent]
    constructor
    · rintro ((hu | hu) | ⟨q', hq', rfl⟩)
      · exact Or.inl hu
      · exact Or.inr ⟨q, by simp, hu.symm⟩
      · exact Or.inr ⟨q', by simp [hq'], rfl⟩
    · rintro (hu | ⟨q', hq', rfl⟩)
      · exact Or.inl (Or.inl hu)
      · rcases List.mem_cons.mp hq' with rfl | hq''
        · exact Or.inl (Or.inr rfl)
        · exact Or.inr ⟨q', hq'', rfl⟩

lemma mem_parse_listings_serialize (L : List String)
    (hwf : ∀ u ∈ L, u.data ≠ [] ∧ pyStripL u.data = u.data ∧ '\n' ∉ u.data)
    (u : String) : u ∈ parse_listings (serialize_listings L) ↔ u ∈ L := by
  unfold parse_listings serialize_listings
  have hdata : (String.mk (List.flatten ((sortL L).map (fun v => v.data ++ ['\n'])))).data
      = List.flatten ((sortL L).map (fun v => v.data ++ ['\n'])) := rfl
  rw [hdata]
  have hmm : (sortL L).map (fun v : String => v.data ++ ['\n'])
      = ((sortL L).map (fun v : String => v.data)).map (fun q => q ++ ['\n']) := by
    rw [List.map_map]
    rfl
  rw [hmm]
  have hq : ∀ q ∈ (sortL L).map (fun v : String => v.data), '\n' ∉ q := by
    intro q hq'
    obtain ⟨v, hv, rfl⟩ := List.mem_map.mp hq'
    exact ((hwf v ((mem_sortL v L).mp hv)).2.2)
  rw [splitChar_join_newline _ hq, List.map_append, List.filter_append]
  have hstrip : ((sortL L).map (fun v : String => v.data)).map pyStripL
      = (sortL L).map (fun v : String => v.data) := by
    apply mapSelf
    intro x hx
    obtain ⟨v, hv, rfl⟩ := List.mem_map.mp hx
    exact (hwf v ((mem_sortL v L).mp hv)).2.1
  rw [hstrip]
  have hfilt : ((sortL L).map (fun v : String => v.data)).filter (fun l => decide (l ≠ []))
      = (sortL L).map (fun v : String => v.data) := by
    rw [List.filter_eq_self]
    intro a ha
    obtain ⟨v, hv, rfl⟩ := List.mem_map.mp ha
    simpa using (hwf v ((mem_sortL v L).mp hv)).1
  rw [hfilt]
  rw [show ([[]] : List (List Char)).map pyStripL = [[]] from rfl]
  rw [show ([[]] : List (List Char)).filter (fun l => decide (l ≠ [])) = [] from rfl,
    List.append_nil]
  rw [mem_foldl_addIfAbsent]
  simp only [List.mem_nil_iff, false_or]
  constructor
  · rintro ⟨q, hq', rfl⟩
    obtain ⟨v, hv, rfl⟩ := List.mem_map.mp hq'
    exact (mem_sortL v L).mp hv
  · intro hu
    exact ⟨u.data, List.mem_map.mpr ⟨u, (mem_sortL u L).mpr hu, rfl⟩, rfl⟩

/-- C6: the state read never raises — for every state-directory
content it returns a value, a missing file maps to an absent
fingerprint/text or an empty listing set, and a file whose read raises
is logged and yields an absent/empty value (together with the reads the
source's single `try` block skips after it), so the run proceeds as
Baseline or with an empty listing set. -/
theorem read_state_fail_open (dir : StateDir) :
    (dir.hashF = PFile.missing → (read_state dir).last_hash = none) ∧
    (dir.textF = PFile.missing → (read_state dir).last_text = none) ∧
    (dir.listingsF = PFile.missing → (read_state dir).last_listings = []) ∧
    (dir.hashF = PFile.corrupt → read_state dir = ⟨none, none, [], [warn_read_state]⟩) ∧
    (dir.textF = PFile.corrupt → (read_state dir).last_text = none ∧
      (read_state dir).last_listings = [] ∧ (read_state dir).logs ≠ []) ∧
    (dir.listingsF = PFile.corrupt → (read_state dir).last_listings = [] ∧
      (read_state dir).logs ≠ []) := by
  obtain ⟨hf, tf, lf⟩ := dir
  cases hf <;> cases tf <;> cases lf <;> simp [read_state]

/-- Witness for C6: all three files unreadable. -/
theorem read_state_fail_open_witness :
    read_state ⟨PFile.corrupt, PFile.corrupt, PFile.corrupt⟩
      = ⟨none, none, [], [warn_read_state]⟩ :=
  (read_state_fail_open ⟨PFile.corrupt, PFile.corrupt, PFile.corrupt⟩).2.2.2.1 rfl

/-! ### The orchestrator -/

lemma send_email_of_ok (cfg : Config) (w : World) (subject body : String)
    (hemail : cfg.emailConfigured = true → w.emailSendOk = true) :
    send_email cfg w subject body = Except.ok (emailOut cfg subject body) := by
  unfold send_email emailOut
  cases hc : cfg.emailConfigured
  · simp
  · simp [hemail hc]

/-- C5: a run with prior state, no new listings and an unchanged
fingerprint is a no-op — no notification event, the state directory is
returned untouched, and the run completes with exit code 0. -/
theorem no_change_run_is_noop (col : Collaborators) (cfg : Config) (w : World)
    (html : String) (dir : StateDir) (lh : String)
    (hprev : (read_state dir).last_hash = some lh)
    (hnone : setDiffL (extract_listings col.urljoin (col.findHrefs html) cfg.url)
      (read_state dir).last_listings = [])
    (heq : col.sha256hex (normalize_text col.get_text html) = lh) :
    run_once col cfg w html dir
      = Except.ok ⟨0, dir, [], SendOut.nil, (read_state dir).logs⟩ := by
  simp only [run_once]
  rw [hprev, hnone, heq]
  simp [sortL]

/-- C2: a run with prior state and a nonempty set of new listings sends
the new-listings notification (built from the sorted new URLs, first 10
shown and the remainder summarized by count), persists the current
snapshot (fingerprint, text, listing set), exits 0, and emits no other
notification event — in particular the fingerprint check is never
reached, whatever the text did.  The email-ok hypothesis says the email
collaborator does not raise (its failure mode is claim C1's subject). -/
theorem new_listings_check_takes_priority (col : Collaborators) (cfg : Config)
    (w : World) (html : String) (dir : StateDir) (lh : String)
    (hprev : (read_state dir).last_hash = some lh)
    (hnew : setDiffL (extract_listings col.urljoin (col.findHrefs html) cfg.url)
      (read_state dir).last_listings ≠ [])
    (hemail : cfg.emailConfigured = true → w.emailSendOk = true) :
    ∃ r : RunResult,
      run_once col cfg w html dir = Except.ok r ∧
      r.exitCode = 0 ∧
      r.dir = write_state dir (col.sha256hex (normalize_text col.get_text html))
        (normalize_text col.get_text html)
        (some (extract_listings col.urljoin (col.findHrefs html) cfg.url)) ∧
      r.events = [⟨"New PSOAS listings available",
        new_listings_message cfg.url w.ts
          (sortL (setDiffL (extract_listings col.urljoin (col.findHrefs html) cfg.url)
            (read_state dir).last_listings))⟩] := by
  have hsort : sortL (setDiffL (extract_listings col.urljoin (col.findHrefs html) cfg.url)
      (read_state dir).last_listings) ≠ [] := fun h0 => hnew ((sortL_eq_nil_iff _).mp h0)
  simp only [run_once]
  rw [hprev]
  dsimp only
  rw [if_pos hsort, send_email_of_ok cfg w _ _ hemail]
  exact ⟨_, rfl, rfl, rfl, rfl⟩

/-- C3: a run with prior state, no new listings, and a changed
fingerprint sends exactly one notification event — the diff-based one,
whose body contains the unified diff of the stored text against the new
normalized text — and persists the current snapshot before finishing. -/
theorem fingerprint_change_sends_single_diff_notification (col : Collaborators)
    (cfg : Config) (w : World) (html : String) (dir : StateDir) (lh : String)
    (hprev : (read_state dir).last_hash = some lh)
    (hnone : setDiffL (extract_listings col.urljoin (col.findHrefs html) cfg.url)
      (read_state dir).last_listings = [])
    (hne : col.sha256hex (normalize_text col.get_text html) ≠ lh)
    (hemail : cfg.emailConfigured = true → w.emailSendOk = true) :
    ∃ r : RunResult,
      run_once col cfg w html dir = Except.ok r ∧
      r.exitCode = 0 ∧
      r.events = [⟨changed_subject w.ts,
        changed_body cfg.url lh (col.sha256hex (normalize_text col.get_text html))
          (make_diff col.unified_diff ((read_state dir).last_text.getD "")
            (normalize_text col.get_text html) 2000)⟩] ∧
      (∃ p q : String, changed_body cfg.url lh
          (col.sha256hex (normalize_text col.get_text html))
          (make_diff col.unified_diff ((read_state dir).last_text.getD "")
            (normalize_text col.get_text html) 2000)
        = p ++ make_diff col.unified_diff ((read_state dir).last_text.getD "")
            (normalize_text col.get_text html) 2000 ++ q) ∧
      r.dir = write_state dir (col.sha256hex (normalize_text col.get_text html))
        (normalize_text col.get_text html)
        (some (extract_listings col.urljoin (col.findHrefs html) cfg.url)) := by
  simp only [run_once]
  rw [hprev]
  dsimp only
  rw [hnone]
  rw [if_neg (by simp [sortL]), if_pos hne, send_email_of_ok cfg w _ _ hemail]
  refine ⟨_, rfl, rfl, rfl, ⟨_, "\n", rfl⟩, rfl⟩

/-! ### Concrete fixtures for the witnesses -/

/-- Concrete collaborators for the witnesses: identity text extraction,
constant fingerprint, identity URL resolution, one fixed listing link. -/
def colW : Collaborators :=
  ⟨fun s => s, fun _ => "beef", fun _ h => h, fun _ => ["/en/apartments/k1"],
   fun _ _ => ["d"]⟩

/-- Fully configured notifier channels with first-run notification. -/
def cfgW : Config := ⟨"base", true, true, true⟩

/-- A world where both sends succeed. -/
def wOk : World := ⟨true, true, "TS"⟩

/-- Prior state whose listing file is missing (empty prior set). -/
def dirPrev : StateDir := ⟨PFile.content "old", PFile.content "prev", PFile.missing⟩

/-- Prior state matching the current page (hash `beef`, same listing). -/
def dirSame : StateDir :=
  ⟨PFile.content "beef", PFile.content "prev", PFile.content "/en/apartments/k1\n"⟩

/-- Prior state with same listings but a different hash. -/
def dirDiff : StateDir :=
  ⟨PFile.content "old", PFile.content "prev", PFile.content "/en/apartments/k1\n"⟩

/-- Witness for C5 at concrete inputs. -/
theorem no_change_run_is_noop_witness :
    run_once colW cfgW wOk "page" dirSame
      = Except.ok ⟨0, dirSame, [], SendOut.nil, (read_state dirSame).logs⟩ :=
  no_change_run_is_noop colW cfgW wOk "page" dirSame "beef" (by decide) (by decide)
    (by decide)

/-- Witness for C2 at concrete inputs. -/
theorem new_listings_check_takes_priority_witness :
    ∃ r : RunResult,
      run_once colW cfgW wOk "page" dirPrev = Except.ok r ∧
      r.exitCode = 0 ∧
      r.dir = write_state dirPrev (colW.sha256hex (normalize_text colW.get_text "page"))
        (normalize_text colW.get_text "page")
        (some (extract_listings colW.urljoin (colW.findHrefs "page") cfgW.url)) ∧
      r.events = [⟨"New PSOAS listings available",
        new_listings_message cfgW.url wOk.ts
          (sortL (setDiffL (extract_listings colW.urljoin (colW.findHrefs "page") cfgW.url)
            (read_state dirPrev).last_listings))⟩] :=
  new_listings_check_takes_priority colW cfgW wOk "page" dirPrev "old" (by decide)
    (by decide) (by decide)

/-- Witness for C3 at concrete inputs. -/
theorem fingerprint_change_sends_single_diff_notification_witness :
    ∃ r : RunResult,
      run_once colW cfgW wOk "page" dirDiff = Except.ok r ∧
      r.exitCode = 0 ∧
      r.events = [⟨changed_subject wOk.ts,
        changed_body cfgW.url "old" (colW.sha256hex (normalize_text colW.get_text "page"))
          (make_diff colW.unified_diff ((read_state dirDiff).last_text.getD "")
            (normalize_text colW.get_text "page") 2000)⟩] ∧
      (∃ p q : String, changed_body cfgW.url "old"
          (colW.sha256hex (normalize_text colW.get_text "page"))
          (make_diff colW.unified_diff ((read_state dirDiff).last_text.getD "")
            (normalize_text colW.get_text "page") 2000)
        = p ++ make_diff colW.unified_diff ((read_state dirDiff).last_text.getD "")
            (normalize_text colW.get_text "page") 2000 ++ q) ∧
      r.dir = write_state dirDiff (colW.sha256hex (normalize_text colW.get_text "page"))
        (normalize_text colW.get_text "page")
        (some (extract_listings colW.urljoin (colW.findHrefs "page") cfgW.url)) :=
  fingerprint_change_sends_single_diff_notification colW cfgW wOk "page" dirDiff "old"
    (by decide) (by decide) (by decide) (by decide)

lemma run_once_baseline (col : Collaborators) (cfg : Config) (w : World)
    (html : String) (dir : StateDir)
    (hbase : (read_state dir).last_hash = none)
    (hemail : cfg.emailConfigured = true → w.emailSendOk = true) :
    ∃ r : RunResult,
      run_once col cfg w html dir = Except.ok r ∧
      r.exitCode = 0 ∧
      r.dir = write_state dir (col.sha256hex (normalize_text col.get_text html))
        (normalize_text col.get_text html)
        (some (extract_listings col.urljoin (col.findHrefs html) cfg.url)) ∧
      r.events = (if cfg.notify_first then
        [⟨baseline_subject, baseline_body w.ts cfg.url⟩] else []) := by
  simp only [run_once]
  rw [hbase]
  dsimp only
  cases hn : cfg.notify_first
  · simp only [Bool.false_eq_true, if_false]
    exact ⟨_, rfl, rfl, rfl, rfl⟩
  · simp only [if_true]
    rw [send_email_of_ok cfg w _ _ hemail]
    exact ⟨_, rfl, rfl, rfl, rfl⟩

lemma read_state_write_state (dir : StateDir) (h text : String) (L : List String) :
    read_state (write_state dir h text (some L))
      = ⟨parse_hash h, some text, parse_listings (serialize_listings L), []⟩ := rfl

/-- C4: a run with no prior fingerprint persists the current snapshot,
sends the baseline notification exactly when the notify-on-first-run
toggle is set, and exits 0; a second run on identical input HTML over
the persisted state sends zero notification events and returns the
state directory (in particular the fingerprint file) untouched.  The
well-formedness hypotheses record that the fingerprint collaborator
returns a nonempty whitespace-free digest (true of a sha256 hexdigest)
and that the extracted listing URLs round-trip through the one-per-line
file format (nonempty, strip-invariant, newline-free strings). -/
theorem baseline_run_persists_and_second_run_is_quiet (col : Collaborators)
    (cfg : Config) (w w2 : World) (html : String) (dir : StateDir)
    (hbase : (read_state dir).last_hash = none)
    (hemail : cfg.emailConfigured = true → w.emailSendOk = true)
    (hh1 : pyStripStr (col.sha256hex (normalize_text col.get_text html))
      = col.sha256hex (normalize_text col.get_text html))
    (hh2 : col.sha256hex (normalize_text col.get_text html) ≠ "")
    (hurls : ∀ u ∈ extract_listings col.urljoin (col.findHrefs html) cfg.url,
      u.data ≠ [] ∧ pyStripL u.data = u.data ∧ '\n' ∉ u.data) :
    (∃ r : RunResult,
      run_once col cfg w html dir = Except.ok r ∧
      r.exitCode = 0 ∧
      r.dir = write_state dir (col.sha256hex (normalize_text col.get_text html))
        (normalize_text col.get_text html)
        (some (extract_listings col.urljoin (col.findHrefs html) cfg.url)) ∧
      r.events = (if cfg.notify_first then
        [⟨baseline_subject, baseline_body w.ts cfg.url⟩] else [])) ∧
    run_once col cfg w2 html
        (write_state dir (col.sha256hex (normalize_text col.get_text html))
          (normalize_text col.get_text html)
          (some (extract_listings col.urljoin (col.findHrefs html) cfg.url)))
      = Except.ok ⟨0,
          write_state dir (col.sha256hex (normalize_text col.get_text html))
            (normalize_text col.get_text html)
            (some (extract_listings col.urljoin (col.findHrefs html) cfg.url)),
          [], SendOut.nil, []⟩ := by
  refine ⟨run_once_baseline col cfg w html dir hbase hemail, ?_⟩
  have hrs : read_state (write_state dir (col.sha256hex (normalize_text col.get_text html))
      (normalize_text col.get_text html)
      (some (extract_listings col.urljoin (col.findHrefs html) cfg.url)))
      = ⟨some (col.sha256hex (normalize_text col.get_text html)),
         some (normalize_text col.get_text html),
         parse_listings (serialize_listings
           (extract_listings col.urljoin (col.findHrefs html) cfg.url)), []⟩ := by
    rw [read_state_write_state]
    unfold parse_hash
    rw [hh1, if_neg hh2]
  have hdiff : setDiffL (extract_listings col.urljoin (col.findHrefs html) cfg.url)
      (parse_listings (serialize_listings
        (extract_listings col.urljoin (col.findHrefs html) cfg.url))) = [] :=
    setDiffL_eq_nil _ _ (fun u hu =>
      (mem_parse_listings_serialize _ hurls u).mpr hu)
  simp only [run_once]
  rw [hrs]
  dsimp only
  rw [hdiff]
  rw [if_neg (by simp [sortL]), if_neg (by simp)]

lemma read_state_hash_content_blank (dir : StateDir) (s : String)
    (hs : dir.hashF = PFile.content s) (hblank : pyStripStr s = "") :
    (read_state dir).last_hash = none := by
  obtain ⟨hf, tf, lf⟩ := dir
  simp only [StateDir.hashF] at hs
  subst hs
  cases tf <;> cases lf <;> simp [read_state, parse_hash, hblank]

/-- C10 (implicit): a fingerprint file that exists but holds only
whitespace (or nothing) reads back as an absent fingerprint, so the
next run behaves as a Baseline run — it overwrites all three state
artifacts and sends no change notification (only the baseline
notification, and only when the toggle is set) — even when text and
listing-set files are still present. -/
theorem blank_hash_file_triggers_baseline (col : Collaborators) (cfg : Config)
    (w : World) (html : String) (dir : StateDir) (s : String)
    (hs : dir.hashF = PFile.content s)
    (hblank : pyStripStr s = "")
    (hemail : cfg.emailConfigured = true → w.emailSendOk = true) :
    (read_state dir).last_hash = none ∧
    ∃ r : RunResult,
      run_once col cfg w html dir = Except.ok r ∧
      r.exitCode = 0 ∧
      r.dir = write_state dir (col.sha256hex (normalize_text col.get_text html))
        (normalize_text col.get_text html)
        (some (extract_listings col.urljoin (col.findHrefs html) cfg.url)) ∧
      r.events = (if cfg.notify_first then
        [⟨baseline_subject, baseline_body w.ts cfg.url⟩] else []) := by
  have hnone := read_state_hash_content_blank dir s hs hblank
  exact ⟨hnone, run_once_baseline col cfg w html dir hnone hemail⟩

/-- C1 (amended): a Telegram send failure is caught and logged for that
channel only — it does not abort the run, the email channel is still
attempted (when configured), and the run completes with exit code 0 and
persists the snapshot (stated on the new-listings notification path;
the email channel, by contrast, has no such protection, see the
counterexample). -/
theorem telegram_send_failure_is_isolated (col : Collaborators) (cfg : Config)
    (w : World) (html : String) (dir : StateDir) (lh : String)
    (hprev : (read_state dir).last_hash = some lh)
    (hnew : setDiffL (extract_listings col.urljoin (col.findHrefs html) cfg.url)
      (read_state dir).last_listings ≠ [])
    (htc : cfg.telegramConfigured = true)
    (htf : w.telegramSendOk = false)
    (hemail : cfg.emailConfigured = true → w.emailSendOk = true) :
    ∃ r : RunResult,
      run_once col cfg w html dir = Except.ok r ∧
      r.exitCode = 0 ∧
      r.dir = write_state dir (col.sha256hex (normalize_text col.get_text html))
        (normalize_text col.get_text html)
        (some (extract_listings col.urljoin (col.findHrefs html) cfg.url)) ∧
      warn_telegram_failed ∈ r.sends.logs ∧
      Channel.telegram ∈ r.sends.attempts ∧
      (cfg.emailConfigured = true → Channel.email ∈ r.sends.attempts) ∧
      r.events = [⟨"New PSOAS listings available",
        new_listings_message cfg.url w.ts
          (sortL (setDiffL (extract_listings col.urljoin (col.findHrefs html) cfg.url)
            (read_state dir).last_listings))⟩] := by
  have hsort : sortL (setDiffL (extract_listings col.urljoin (col.findHrefs html) cfg.url)
      (read_state dir).last_listings) ≠ [] := fun h0 => hnew ((sortL_eq_nil_iff _).mp h0)
  have htg : ∀ msg, send_telegram cfg w msg
      = ⟨[warn_telegram_failed], [Channel.telegram], []⟩ := by
    intro msg
    unfold send_telegram
    simp [htc, htf]
  simp only [run_once]
  rw [hprev]
  dsimp only
  rw [if_pos hsort, send_email_of_ok cfg w _ _ hemail, htg]
  refine ⟨_, rfl, rfl, rfl, ?_, ?_, ?_, rfl⟩
  · simp [SendOut.app]
  · simp [SendOut.app]
  · intro hc
    simp [SendOut.app, emailOut, hc]

/-- Notifier configuration with Telegram unconfigured and email
configured, for the C1 counterexample. -/
def cfgEmailOnly : Config := ⟨"base", false, false, true⟩

/-- A world where the email send raises. -/
def wEmailFails : World := ⟨true, false, "TS"⟩

/-- Counterexample to C1 as stated: on a notifying run (prior state
present, one new listing) with the email channel configured and its
send raising, `run_once` propagates the exception instead of catching
it — the run aborts (process exit code 1 via `main`) and, since the
new-listings path writes state only after the sends, nothing is
persisted.  So an email-channel send failure is not confined to its
channel. -/
theorem email_send_failure_aborts_run :
    run_once colW cfgEmailOnly wEmailFails "page" dirPrev
      = Except.error "SMTPException raised during send_email" ∧
    main_exit (run_once colW cfgEmailOnly wEmailFails "page" dirPrev) = 1 :=
  ⟨rfl, rfl⟩

/-- A world where the Telegram send raises and the email send works. -/
def wTelegramFails : World := ⟨false, true, "TS"⟩

/-- Witness for the amended C1 at concrete inputs. -/
theorem telegram_send_failure_is_isolated_witness :
    ∃ r : RunResult,
      run_once colW cfgW wTelegramFails "page" dirPrev = Except.ok r ∧
      r.exitCode = 0 ∧
      r.dir = write_state dirPrev (colW.sha256hex (normalize_text colW.get_text "page"))
        (normalize_text colW.get_text "page")
        (some (extract_listings colW.urljoin (colW.findHrefs "page") cfgW.url)) ∧
      warn_telegram_failed ∈ r.sends.logs ∧
      Channel.telegram ∈ r.sends.attempts ∧
      (cfgW.emailConfigured = true → Channel.email ∈ r.sends.attempts) ∧
      r.events = [⟨"New PSOAS listings available",
        new_listings_message cfgW.url wTelegramFails.ts
          (sortL (setDiffL (extract_listings colW.urljoin (colW.findHrefs "page") cfgW.url)
            (read_state dirPrev).last_listings))⟩] :=
  telegram_send_failure_is_isolated colW cfgW wTelegramFails "page" dirPrev "old"
    (by decide) (by decide) (by decide) (by decide) (by decide)

/-- All three state files absent: the first-ever run. -/
def dirEmpty : StateDir := ⟨PFile.missing, PFile.missing, PFile.missing⟩

/-- Witness for C4 at concrete inputs. -/
theorem baseline_run_persists_and_second_run_is_quiet_witness :
    (∃ r : RunResult,
      run_once colW cfgW wOk "page" dirEmpty = Except.ok r ∧
      r.exitCode = 0 ∧
      r.dir = write_state dirEmpty (colW.sha256hex (normalize_text colW.get_text "page"))
        (normalize_text colW.get_text "page")
        (some (extract_listings colW.urljoin (colW.findHrefs "page") cfgW.url)) ∧
      r.events = (if cfgW.notify_first then
        [⟨baseline_subject, baseline_body wOk.ts cfgW.url⟩] else [])) ∧
    run_once colW cfgW wOk "page"
        (write_state dirEmpty (colW.sha256hex (normalize_text colW.get_text "page"))
          (normalize_text colW.get_text "page")
          (some (extract_listings colW.urljoin (colW.findHrefs "page") cfgW.url)))
      = Except.ok ⟨0,
          write_state dirEmpty (colW.sha256hex (normalize_text colW.get_text "page"))
            (normalize_text colW.get_text "page")
            (some (extract_listings colW.urljoin (colW.findHrefs "page") cfgW.url)),
          [], SendOut.nil, []⟩ :=
  baseline_run_persists_and_second_run_is_quiet colW cfgW wOk wOk "page" dirEmpty
    (by decide) (by decide) (by decide) (by decide) (by decide)

/-- A state directory with a whitespace-only fingerprint file but
present text and listings files. -/
def dirBlankHash : StateDir :=
  ⟨PFile.content " \n", PFile.content "prev", PFile.content "/en/apartments/z9\n"⟩

/-- Witness for C10 at concrete inputs. -/
theorem blank_hash_file_triggers_baseline_witness :
    (read_state dirBlankHash).last_hash = none ∧
    ∃ r : RunResult,
      run_once colW cfgW wOk "page" dirBlankHash = Except.ok r ∧
      r.exitCode = 0 ∧
      r.dir = write_state dirBlankHash
        (colW.sha256hex (normalize_text colW.get_text "page"))
        (normalize_text colW.get_text "page")
        (some (extract_listings colW.urljoin (colW.findHrefs "page") cfgW.url)) ∧
      r.events = (if cfgW.notify_first then
        [⟨baseline_subject, baseline_body wOk.ts cfgW.url⟩] else []) :=
  blank_hash_file_triggers_baseline colW cfgW wOk "page" dirBlankHash " \n"
    rfl (by decide) (by decide)

/-! ### Lemmas for the listing extractor -/

lemma dropWhile_head_false (p : Char → Bool) (l : List Char) (x : Char) (r : List Char)
    (h : l.dropWhile p = x :: r) : p x = false := by
  induction l with
  | nil => simp at h
  | cons y t ih =>
    by_cases hy : p y
    · rw [List.dropWhile_cons_of_pos hy] at h
      exact ih h
    · rw [List.dropWhile_cons_of_neg hy] at h
      injection h with h1 _
      subst h1
      simpa using hy

lemma dropWhile_nil_all (p : Char → Bool) (l : List Char) (h : l.dropWhile p = []) :
    ∀ x ∈ l, p x = true := by
  induction l with
  | nil => simp
  | cons y t ih =>
    by_cases hy : p y
    · rw [List.dropWhile_cons_of_pos hy] at h
      intro x hx
      rcases List.mem_cons.mp hx with rfl | hx'
      · exact hy
      · exact ih h x hx'
    · rw [List.dropWhile_cons_of_neg hy] at h
      simp at h

lemma dropWhile_append_of_all (p : Char → Bool) (m n : List Char)
    (h : ∀ x ∈ m, p x = true) : (m ++ n).dropWhile p = n.dropWhile p := by
  induction m with
  | nil => rfl
  | cons y t ih =>
    rw [List.cons_append, List.dropWhile_cons_of_pos (h y (by simp))]
    exact ih (fun x hx => h x (by simp [hx]))

lemma rstripChar_nil_all (c : Char) (l : List Char) (h : rstripChar c l = []) :
    ∀ x ∈ l, x = c := by
  unfold rstripChar dropEndWhile at h
  rw [List.reverse_eq_nil_iff] at h
  intro x hx
  have := dropWhile_nil_all _ _ h x (List.mem_reverse.mpr hx)
  simpa using this

lemma rstripChar_ne_nil_decomp (c : Char) (l : List Char) (h : rstripChar c l ≠ []) :
    ∃ w d, rstripChar c l = w ++ [d] ∧ d ≠ c := by
  unfold rstripChar dropEndWhile at h ⊢
  cases hm : l.reverse.dropWhile (· == c) with
  | nil =>
    rw [hm] at h
    exact absurd rfl h
  | cons x r =>
    refine ⟨r.reverse, x, by simp, ?_⟩
    have := dropWhile_head_false _ _ _ _ hm
    simpa using this

lemma rstripChar_append_all (c : Char) (w : List Char) (d : Char) (tr : List Char)
    (htr : ∀ x ∈ tr, x = c) (hd : d ≠ c) :
    rstripChar c (w ++ d :: tr) = w ++ [d] := by
  unfold rstripChar dropEndWhile
  rw [List.reverse_append, List.reverse_cons]
  rw [List.append_assoc, dropWhile_append_of_all _ _ _
    (fun x hx => by simp [htr x (List.mem_reverse.mp hx)])]
  rw [show ([d] ++ w.reverse : List Char) = d :: w.reverse from rfl,
    List.dropWhile_cons_of_neg (by simp [hd])]
  simp

lemma stripChar_nil_all (c : Char) (m : List Char) (h : stripChar c m = []) :
    ∀ x ∈ m, x = c := by
  unfold stripChar at h
  have h1 := rstripChar_nil_all c _ h
  intro x hx
  have hsplit := List.takeWhile_append_dropWhile (p := fun y => y == c) (l := m)
  rw [← hsplit] at hx
  rcases List.mem_append.mp hx with hx' | hx'
  · simpa using List.mem_takeWhile_imp hx'
  · exact h1 x hx'

lemma stripChar_of_all (c : Char) (m : List Char) (h : ∀ x ∈ m, x = c) :
    stripChar c m = [] := by
  unfold stripChar
  have hdw : m.dropWhile (· == c) = [] := by
    induction m with
    | nil => rfl
    | cons y t ih =>
      rw [List.dropWhile_cons_of_pos (by simp [h y (by simp)])]
      exact ih (fun x hx => h x (by simp [hx]))
  rw [hdw]
  rfl

lemma lastCh_append (w t : List Char) (h : t ≠ []) : lastCh (w ++ t) = lastCh t := by
  induction w with
  | nil => rfl
  | cons x w' ih =>
    have hwt : w' ++ t ≠ [] := by
      intro h0
      exact h (List.append_eq_nil.mp h0).2
    cases hw : w' ++ t with
    | nil => exact absurd hw hwt
    | cons y r =>
      rw [List.cons_append, hw]
      show lastCh (y :: r) = lastCh t
      rw [← hw, ih]

lemma lastCh_concat (w : List Char) (d : Char) : lastCh (w ++ [d]) = some d := by
  rw [lastCh_append w [d] (by simp)]
  rfl

lemma lastCh_mem : ∀ (l : List Char) (d : Char), lastCh l = some d → d ∈ l := by
  intro l
  induction l with
  | nil => intro d h; simp [lastCh] at h
  | cons c r ih =>
    intro d h
    cases r with
    | nil =>
      simp [lastCh] at h
      simp [h]
    | cons e r' =>
      have : lastCh (e :: r') = some d := h
      exact List.mem_cons_of_mem c (ih d this)

lemma lastD_append_single : ∀ (l : List (List Char)) (t : List Char),
    lastD (l ++ [t]) = t := by
  intro l
  induction l with
  | nil => intro t; rfl
  | cons x l' ih =>
    intro t
    cases l' with
    | nil => rfl
    | cons y l'' =>
      show lastD ((y :: l'') ++ [t]) = t
      exact ih t

lemma exists_init_lastD (l : List (List Char)) (h : l ≠ []) :
    ∃ init, l = init ++ [lastD l] ∧ init.length + 1 = l.length := by
  induction l with
  | nil => exact absurd rfl h
  | cons x l' ih =>
    cases l' with
    | nil => exact ⟨[], rfl, rfl⟩
    | cons y l'' =>
      obtain ⟨init, h1, h2⟩ := ih (by simp)
      refine ⟨x :: init, ?_, by simp [← h2]⟩
      show x :: (y :: l'') = (x :: init) ++ [lastD (x :: y :: l'')]
      rw [show lastD (x :: y :: l'') = lastD (y :: l'') from rfl, List.cons_append, ← h1]

lemma joinWith_append_single (sep t : List Char) :
    ∀ l : List (List Char), l ≠ [] →
      ∃ u, joinWith sep (l ++ [t]) = u ++ (sep ++ t) := by
  intro l
  induction l with
  | nil => intro h; exact absurd rfl h
  | cons a l' ih =>
    intro _
    cases l' with
    | nil =>
      refine ⟨a, ?_⟩
      show joinWith sep [a, t] = a ++ (sep ++ t)
      rw [joinWith]
      simp [joinWith, List.append_assoc]
    | cons b l'' =>
      obtain ⟨u', hu⟩ := ih (by simp)
      refine ⟨a ++ sep ++ u', ?_⟩
      show joinWith sep (a :: (b :: l'') ++ [t]) = _
      rw [show (a : List Char) :: (b :: l'') ++ [t] = a :: ((b :: l'') ++ [t]) from rfl]
      rw [show ((b :: l'') ++ [t] : List (List Char)) = b :: (l'' ++ [t]) from rfl]
      rw [joinWith]
      rw [show (b :: (l'' ++ [t]) : List (List Char)) = (b :: l'') ++ [t] from rfl, hu]
      simp [List.append_assoc]

lemma containsSub_nil_eq (pat : List Char) :
    containsSub pat [] = decide (pat = []) := rfl

lemma containsSub_cons_eq (pat : List Char) (c : Char) (rest : List Char) :
    containsSub pat (c :: rest) = (pat.isPrefixOf (c :: rest) || containsSub pat rest) :=
  rfl

lemma containsSub_cons (pat : List Char) (c : Char) (rest : List Char)
    (h : containsSub pat rest = true) : containsSub pat (c :: rest) = true := by
  rw [containsSub_cons_eq, h]
  simp

lemma containsSub_of_parts (pat : List Char) (hp : pat ≠ []) :
    ∀ u v : List Char, containsSub pat (u ++ (pat ++ v)) = true := by
  intro u
  induction u with
  | nil =>
    intro v
    rw [List.nil_append]
    cases hpat : pat with
    | nil => exact absurd hpat hp
    | cons a pr =>
      rw [show ((a :: pr) ++ v : List Char) = a :: (pr ++ v) from rfl,
        containsSub_cons_eq]
      have : (a :: pr).isPrefixOf (a :: (pr ++ v)) = true := by
        rw [show (a : Char) :: (pr ++ v) = (a :: pr) ++ v from rfl]
        exact List.isPrefixOf_iff_prefix.mpr (List.prefix_append _ _)
      rw [this]
      simp
  | cons x u' ih =>
    intro v
    rw [List.cons_append]
    exact containsSub_cons _ _ _ (ih v)

lemma containsSub_single (c : Char) : ∀ l : List Char,
    containsSub [c] l = true ↔ c ∈ l := by
  intro l
  induction l with
  | nil => simp [containsSub_nil_eq]
  | cons x r ih =>
    rw [containsSub_cons_eq]
    constructor
    · intro h
      rcases Bool.or_eq_true_iff.mp h with h' | h'
      · have : c = x := by
          obtain ⟨t, ht⟩ := List.isPrefixOf_iff_prefix.mp h'
          simpa using congrArg List.head? ht
        simp [this]
      · exact List.mem_cons_of_mem x (ih.mp h')
    · intro h
      rcases List.mem_cons.mp h with rfl | h'
      · have : [c].isPrefixOf (c :: r) = true :=
          List.isPrefixOf_iff_prefix.mpr ⟨r, rfl⟩
        rw [this]
        simp
      · rw [ih.mpr h']
        simp

lemma pySplitF_ne_nil (pat : List Char) : ∀ (fuel : Nat) (s : List Char),
    pySplitF pat fuel s ≠ [] := by
  intro fuel
  induction fuel with
  | zero => intro s; cases s <;> simp [pySplitF]
  | succ n ih =>
    intro s
    cases s with
    | nil => simp [pySplitF]
    | cons c rest =>
      unfold pySplitF
      by_cases hp : pat.isPrefixOf (c :: rest) = true
      · rw [if_pos hp]
        simp
      · rw [if_neg hp]
        cases hq : pySplitF pat n rest <;> simp

lemma isPrefixOf_append_drop (pat s : List Char) (h : pat.isPrefixOf s = true) :
    pat ++ s.drop pat.length = s := by
  obtain ⟨t, rfl⟩ := List.isPrefixOf_iff_prefix.mp h
  rw [List.drop_left]

lemma joinWith_pySplitF (pat : List Char) (hp : pat ≠ []) :
    ∀ (fuel : Nat) (s : List Char), s.length ≤ fuel →
      joinWith pat (pySplitF pat fuel s) = s := by
  intro fuel
  induction fuel with
  | zero =>
    intro s hs
    have : s = [] := by
      cases s with
      | nil => rfl
      | cons c r => simp at hs
    subst this
    rfl
  | succ n ih =>
    intro s hs
    cases s with
    | nil => rfl
    | cons c rest =>
      unfold pySplitF
      by_cases hpre : pat.isPrefixOf (c :: rest) = true
      · rw [if_pos hpre]
        have hne := pySplitF_ne_nil pat n ((c :: rest).drop pat.length)
        cases hq : pySplitF pat n ((c :: rest).drop pat.length) with
        | nil => exact absurd hq hne
        | cons p ps =>
          have hplen : 1 ≤ pat.length := by
            cases pat with
            | nil => exact absurd rfl hp
            | cons a pr => simp
          have hlen : ((c :: rest).drop pat.length).length ≤ n := by
            rw [List.length_drop]
            simp only [List.length_cons] at hs ⊢
            omega
          have hrec := ih ((c :: rest).drop pat.length) hlen
          rw [hq] at hrec
          show joinWith pat ([] :: p :: ps) = c :: rest
          rw [joinWith, hrec, List.nil_append]
          exact isPrefixOf_append_drop _ _ hpre
      · rw [if_neg hpre]
        have hne := pySplitF_ne_nil pat n rest
        cases hq : pySplitF pat n rest with
        | nil => exact absurd hq hne
        | cons p ps =>
          have hlen : rest.length ≤ n := by
            simp only [List.length_cons] at hs
            omega
          have hrec := ih rest hlen
          rw [hq] at hrec
          cases ps with
          | nil =>
            show joinWith pat [c :: p] = c :: rest
            have : joinWith pat [p] = rest := hrec
            show c :: p = c :: rest
            rw [show joinWith pat [p] = p from rfl] at this
            rw [this]
          | cons q ps' =>
            show joinWith pat ((c :: p) :: q :: ps') = c :: rest
            rw [joinWith]
            rw [joinWith] at hrec
            rw [← hrec]
            simp [List.append_assoc]

lemma pySplitF_length2 (pat : List Char) (hp : pat ≠ []) :
    ∀ (fuel : Nat) (s : List Char), s.length ≤ fuel →
      containsSub pat s = true → 2 ≤ (pySplitF pat fuel s).length := by
  intro fuel
  induction fuel with
  | zero =>
    intro s hs hc
    have : s = [] := by
      cases s with
      | nil => rfl
      | cons c r => simp at hs
    subst this
    rw [containsSub_nil_eq] at hc
    simp [hp] at hc
  | succ n ih =>
    intro s hs hc
    cases s with
    | nil =>
      rw [containsSub_nil_eq] at hc
      simp [hp] at hc
    | cons c rest =>
      unfold pySplitF
      by_cases hpre : pat.isPrefixOf (c :: rest) = true
      · rw [if_pos hpre]
        have := List.length_pos.mpr (pySplitF_ne_nil pat n ((c :: rest).drop pat.length))
        simp only [List.length_cons]
        omega
      · rw [if_neg hpre]
        rw [containsSub_cons_eq] at hc
        rcases Bool.or_eq_true_iff.mp hc with h' | h'
        · exact absurd h' hpre
        · have hlen : rest.length ≤ n := by
            simp only [List.length_cons] at hs
            omega
          have h2 := ih rest hlen h'
          cases hq : pySplitF pat n rest with
          | nil => exact absurd hq (pySplitF_ne_nil pat n rest)
          | cons p ps =>
            rw [hq] at h2
            simp only [List.length_cons] at h2 ⊢
            omega

lemma pySplit_join (pat s : List Char) (hp : pat ≠ []) :
    joinWith pat (pySplit pat s) = s := by
  unfold pySplit
  rw [if_neg hp]
  exact joinWith_pySplitF pat hp s.length s le_rfl

lemma pySplit_ne_nil (pat s : List Char) : pySplit pat s ≠ [] := by
  unfold pySplit
  by_cases hp : pat = []
  · rw [if_pos hp]
    simp
  · rw [if_neg hp]
    exact pySplitF_ne_nil pat s.length s

lemma pySplit_length2 (pat s : List Char) (hp : pat ≠ [])
    (hc : containsSub pat s = true) : 2 ≤ (pySplit pat s).length := by
  unfold pySplit
  rw [if_neg hp]
  exact pySplitF_length2 pat hp s.length s le_rfl hc

lemma pySplitLastPiece_decomp (pat s : List Char) (hp : pat ≠ [])
    (hc : containsSub pat s = true) :
    ∃ u, s = u ++ (pat ++ pySplitLastPiece pat s) := by
  have h2 := pySplit_length2 pat s hp hc
  obtain ⟨init, hinit, hlen⟩ := exists_init_lastD _ (pySplit_ne_nil pat s)
  have hinitne : init ≠ [] := by
    intro h0
    rw [h0] at hlen
    simp at hlen
    omega
  obtain ⟨u, hu⟩ := joinWith_append_single pat (lastD (pySplit pat s)) init hinitne
  refine ⟨u, ?_⟩
  have hjoin := pySplit_join pat s hp
  rw [hinit] at hjoin
  rw [hu] at hjoin
  exact hjoin.symm

lemma keepListing_sound (abs_url out : String) (h : keepListing abs_url = some out) :
    containsSub apartments_marker out.data = true ∧
    containsSub ['?'] out.data = false ∧
    out.data ≠ [] ∧
    lastCh out.data ≠ some '/' ∧
    pySplitLastPiece apartments_marker out.data ≠ [] ∧
    stripChar '/' (pySplitLastPiece apartments_marker out.data) ≠ [] := by
  have hp : apartments_marker ≠ [] := by decide
  simp only [keepListing] at h
  by_cases hG1 : containsSub apartments_marker abs_url.data = true
  case neg =>
    rw [if_neg hG1] at h
    exact absurd h (by simp)
  rw [if_pos hG1] at h
  by_cases hq : containsSub ['?'] abs_url.data = true
  case pos =>
    rw [if_pos hq] at h
    exact absurd h (by simp)
  rw [if_neg hq] at h
  by_cases hG3 : pySplitLastPiece apartments_marker abs_url.data ≠ [] ∧
      stripChar '/' (pySplitLastPiece apartments_marker abs_url.data) ≠ []
  case neg =>
    rw [if_neg hG3] at h
    exact absurd h (by simp)
  rw [if_pos hG3] at h
  have hout : out = String.mk (rstripChar '/' abs_url.data) := by
    injection h with h1
    exact h1.symm
  subst hout
  obtain ⟨u, hu⟩ := pySplitLastPiece_decomp apartments_marker abs_url.data hp hG1
  have hex : ¬(∀ x ∈ pySplitLastPiece apartments_marker abs_url.data, x = '/') :=
    fun hall => hG3.2 (stripChar_of_all _ _ hall)
  have hrne : rstripChar '/' (pySplitLastPiece apartments_marker abs_url.data) ≠ [] :=
    fun h0 => hex (rstripChar_nil_all _ _ h0)
  obtain ⟨w1, d, hw1, hd⟩ := rstripChar_ne_nil_decomp '/' _ hrne
  obtain ⟨tr, htr, htrall⟩ :=
    dropEndWhile_append (· == '/') (pySplitLastPiece apartments_marker abs_url.data)
  rw [show dropEndWhile (· == '/') (pySplitLastPiece apartments_marker abs_url.data)
      = rstripChar '/' (pySplitLastPiece apartments_marker abs_url.data) from rfl,
    hw1] at htr
  have htrall' : ∀ x ∈ tr, x = '/' := fun x hx => by simpa using htrall x hx
  have hL : abs_url.data = (u ++ (apartments_marker ++ w1)) ++ d :: tr := by
    rw [hu, htr]
    simp [List.append_assoc]
  have hod : (String.mk (rstripChar '/' abs_url.data)).data
      = (u ++ (apartments_marker ++ w1)) ++ [d] := by
    show rstripChar '/' abs_url.data = _
    rw [hL]
    exact rstripChar_append_all '/' _ d tr htrall' hd
  have hc1 : containsSub apartments_marker
      (String.mk (rstripChar '/' abs_url.data)).data = true := by
    rw [hod, show ((u ++ (apartments_marker ++ w1)) ++ [d] : List Char)
        = u ++ (apartments_marker ++ (w1 ++ [d])) by simp [List.append_assoc]]
    exact containsSub_of_parts _ hp u (w1 ++ [d])
  have hlast : lastCh (String.mk (rstripChar '/' abs_url.data)).data = some d := by
    rw [hod]
    exact lastCh_concat _ d
  have h4 : lastCh (String.mk (rstripChar '/' abs_url.data)).data ≠ some '/' := by
    rw [hlast]
    intro hco
    exact hd (Option.some.inj hco)
  refine ⟨hc1, ?_, ?_, h4, ?_, ?_⟩
  · cases hc2 : containsSub ['?'] (String.mk (rstripChar '/' abs_url.data)).data
    · rfl
    · exfalso
      have hmem : '?' ∈ (String.mk (rstripChar '/' abs_url.data)).data :=
        (containsSub_single '?' _).mp hc2
      obtain ⟨tr2, htr2, _⟩ := dropEndWhile_append (· == '/') abs_url.data
      have hmem2 : '?' ∈ abs_url.data := by
        rw [htr2]
        exact List.mem_append_left _ hmem
      exact hq ((containsSub_single '?' abs_url.data).mpr hmem2)
  · rw [hod]
    simp
  · intro h0
    obtain ⟨u2, hu2⟩ := pySplitLastPiece_decomp apartments_marker
      (String.mk (rstripChar '/' abs_url.data)).data hp hc1
    rw [h0, List.append_nil] at hu2
    have : lastCh (String.mk (rstripChar '/' abs_url.data)).data = some '/' := by
      rw [hu2, lastCh_append u2 apartments_marker hp]
      rfl
    exact h4 this
  · intro h0
    obtain ⟨u2, hu2⟩ := pySplitLastPiece_decomp apartments_marker
      (String.mk (rstripChar '/' abs_url.data)).data hp hc1
    have ht1ne : pySplitLastPiece apartments_marker
        (String.mk (rstripChar '/' abs_url.data)).data ≠ [] := by
      intro h1
      rw [h1, List.append_nil] at hu2
      have : lastCh (String.mk (rstripChar '/' abs_url.data)).data = some '/' := by
        rw [hu2, lastCh_append u2 apartments_marker hp]
        rfl
      exact h4 this
    have hpt : apartments_marker ++ pySplitLastPiece apartments_marker
        (String.mk (rstripChar '/' abs_url.data)).data ≠ [] := by
      intro h1
      exact hp (List.append_eq_nil.mp h1).1
    have e1 : lastCh (String.mk (rstripChar '/' abs_url.data)).data
        = lastCh (pySplitLastPiece apartments_marker
            (String.mk (rstripChar '/' abs_url.data)).data) := by
      conv_lhs => rw [hu2]
      rw [lastCh_append u2 _ hpt, lastCh_append _ _ ht1ne]
    have hlt1 := e1.symm.trans hlast
    have hdmem := lastCh_mem _ d hlt1
    have := stripChar_nil_all '/' _ h0 d hdmem
    exact hd this

lemma mem_extract_listings (uj : String → String → String) (base_url : String)
    (u : String) :
    ∀ (hrefs : List String) (acc : List String),
      u ∈ hrefs.foldl (fun acc href =>
        match keepListing (uj base_url (pyStripStr href)) with
        | some v => addIfAbsent acc v
        | none => acc) acc →
      u ∈ acc ∨ ∃ href ∈ hrefs, keepListing (uj base_url (pyStripStr href)) = some u := by
  intro hrefs
  induction hrefs with
  | nil =>
    intro acc hu
    exact Or.inl hu
  | cons href hs ih =>
    intro acc hu
    rw [List.foldl_cons] at hu
    cases hk : keepListing (uj base_url (pyStripStr href)) with
    | none =>
      rw [hk] at hu
      rcases ih acc hu with h1 | ⟨h', hh', hk'⟩
      · exact Or.inl h1
      · exact Or.inr ⟨h', by simp [hh'], hk'⟩
    | some v =>
      rw [hk] at hu
      rcases ih (addIfAbsent acc v) hu with h1 | ⟨h', hh', hk'⟩
      · rcases (mem_addIfAbsent acc v u).mp h1 with h2 | rfl
        · exact Or.inl h2
        · exact Or.inr ⟨href, by simp, hk⟩
      · exact Or.inr ⟨h', by simp [hh'], hk'⟩

/-- C7: every URL produced by the Listing Extractor contains the
detail-page marker `"/en/apartments/"`, carries no query string (no `?`
anywhere), is nonempty with no trailing slash, and its path tail beyond
the last marker occurrence is nonempty and not all slashes (the bare
marker URL is excluded); and the extractor is a pure function of the
anchor list and base URL, so the same HTML plus base URL always yields
the same set.  `urljoin` and anchor enumeration are the library
collaborators, universally quantified. -/
theorem extract_listings_output_canonical (uj : String → String → String)
    (hrefs : List String) (base_url : String) (u : String)
    (hu : u ∈ extract_listings uj hrefs base_url) :
    containsSub apartments_marker u.data = true ∧
    containsSub ['?'] u.data = false ∧
    u.data ≠ [] ∧
    lastCh u.data ≠ some '/' ∧
    pySplitLastPiece apartments_marker u.data ≠ [] ∧
    stripChar '/' (pySplitLastPiece apartments_marker u.data) ≠ [] ∧
    extract_listings uj hrefs base_url = extract_listings uj hrefs base_url := by
  unfold extract_listings at hu
  rcases mem_extract_listings uj base_url u hrefs [] hu with h0 | ⟨href, _, hk⟩
  · simp at h0
  · obtain ⟨h1, h2, h3, h4, h5, h6⟩ := keepListing_sound _ _ hk
    exact ⟨h1, h2, h3, h4, h5, h6, rfl⟩

/-- Witness for C7 at a concrete resolver, anchor list and base URL. -/
theorem extract_listings_output_canonical_witness :
    containsSub apartments_marker ("/en/apartments/k9".data) = true ∧
    containsSub ['?'] ("/en/apartments/k9".data) = false ∧
    ("/en/apartments/k9".data) ≠ [] ∧
    lastCh ("/en/apartments/k9".data) ≠ some '/' ∧
    pySplitLastPiece apartments_marker ("/en/apartments/k9".data) ≠ [] ∧
    stripChar '/' (pySplitLastPiece apartments_marker ("/en/apartments/k9".data)) ≠ [] ∧
    extract_listings (fun _ h => h) ["/en/apartments/k9/"] "b"
      = extract_listings (fun _ h => h) ["/en/apartments/k9/"] "b" :=
  extract_listings_output_canonical (fun _ h => h) ["/en/apartments/k9/"] "b"
    "/en/apartments/k9" (by decide)

end PsoasWatcher
